import Mathlib

/-!
Shallow embedding of the grid-to-rectangle decomposition implemented in
`src/game/door.rs` (`spawn_door_sensor`).  The decomposition consumes a set of
marked cells (`HashSet<GridCoords>` in the source, one set per level entity)
together with the level's declared `width`/`height`, and produces a list of
axis-aligned rectangles:

* Row plate extraction (`for y in 0..height { for x in 0..=width { ... } }`):
  contiguous runs of marked cells in one row are collapsed into `Plate`s.
* Vertical merging (`rect_builder: HashMap<Plate, Rect>` plus the
  `plate_stack.push(Vec::new())` sentinel row): plates equal (by exact
  `{left,right}` equality) to a plate of the previous row extend the
  in-progress rectangle (`e.top += 1`), otherwise rectangles are emitted.
-/

namespace EscapeBasement

/-- Mirrors `struct Plate { left: i32, right: i32 }` from `door.rs`. -/
structure Plate where
  left : Int
  right : Int
deriving DecidableEq, Repr

/-- Mirrors `struct Rect { left: i32, right: i32, top: i32, bottom: i32 }`. -/
structure Rect where
  left : Int
  right : Int
  top : Int
  bottom : Int
deriving DecidableEq, Repr

/-- The integers `0, 1, ..., n-1`, as iterated by Rust's `0..n` over `i32`
(empty when `n ≤ 0`). -/
def intRange (n : Int) : List Int :=
  (List.range n.toNat).map Int.ofNat

/-- One step of the row scan, mirroring the `match (plate_start,
level_doors.contains(&GridCoords { x, y }))` in `door.rs`.  The state is the
pair `(row_plates, plate_start)`. -/
def plateStep (m : Int → Bool) (st : List Plate × Option Int) (x : Int) :
    List Plate × Option Int :=
  match st.2, m x with
  | some s, false => (st.1 ++ [⟨s, x - 1⟩], none)
  | none, true => (st.1, some x)
  | some s, true => (st.1, some s)
  | none, false => (st.1, none)

/-- The plates of one row: the scan `for x in 0..=width` from `door.rs`
(`width + 1` columns, so a run touching the right edge is closed), keeping
only the accumulated `row_plates`. -/
def rowPlates (m : Int → Bool) (width : Int) : List Plate :=
  ((intRange (width + 1)).foldl (plateStep m) ([], none)).1

/-- The `plate_stack` built by the outer `for y in 0..height` loop. -/
def plateStack (marked : Int → Int → Bool) (width height : Int) :
    List (List Plate) :=
  (intRange height).map (fun y => rowPlates (fun x => marked x y) width)

/-- The state of the vertical merging loop: the `rect_builder` map and the
emitted `door_rects` (the map is modelled as a function `Plate → Option Rect`;
the source's `HashMap` is only ever accessed by key, never iterated). -/
structure MergeState where
  builder : Plate → Option Rect
  rects : List Rect

def initState : MergeState :=
  ⟨fun _ => none, []⟩

/-- `e.top += 1` from the `and_modify` closure. -/
def bumpTop (r : Rect) : Rect :=
  ⟨r.left, r.right, r.top + 1, r.bottom⟩

/-- One iteration of `for prev_plate in &prev_row`: if the plate does not
survive into the current row, remove its in-progress rectangle (when present)
and emit it. -/
def emitStep (currentRow : List Plate) (st : MergeState) (prevPlate : Plate) :
    MergeState :=
  if prevPlate ∈ currentRow then st
  else
    match st.builder prevPlate with
    | some rect =>
        ⟨fun p => if p = prevPlate then none else st.builder p,
          st.rects ++ [rect]⟩
    | none => st

/-- One iteration of `for plate in &current_row`:
`rect_builder.entry(plate).and_modify(|e| e.top += 1).or_insert(...)`. -/
def insertStep (y : Int) (st : MergeState) (plate : Plate) : MergeState :=
  ⟨fun p =>
      if p = plate then
        some (match st.builder plate with
          | some e => bumpTop e
          | none => ⟨plate.left, plate.right, y, y⟩)
      else st.builder p,
    st.rects⟩

/-- The body of `for (y, current_row) in plate_stack.into_iter().enumerate()`. -/
def rowStep (y : Int) (prevRow currentRow : List Plate) (st : MergeState) :
    MergeState :=
  currentRow.foldl (insertStep y) (prevRow.foldl (emitStep currentRow) st)

/-- The merging loop over the (sentinel-extended) plate stack; `y` is the
`enumerate` index and `prev` the `prev_row` variable. -/
def mergeLoop : Nat → List Plate → List (List Plate) → MergeState → MergeState
  | _, _, [], st => st
  | y, prev, current :: rest, st =>
      mergeLoop (y + 1) current rest (rowStep (y : Int) prev current st)

/-- The full decomposition over a marked-cell predicate: build the plate
stack, push the sentinel empty row, run the merge loop, return `door_rects`. -/
def doorRectsP (marked : Int → Int → Bool) (width height : Int) : List Rect :=
  (mergeLoop 0 [] (plateStack marked width height ++ [[]]) initState).rects

/-- The decomposition applied to one partition's marked-cell set (the
per-level `HashSet<GridCoords>` of `door.rs`). -/
def doorRects (doors : Finset (Int × Int)) (width height : Int) : List Rect :=
  doorRectsP (fun x y => decide ((x, y) ∈ doors)) width height

/-- `R` covers the cell `(x, y)`: the inclusive box `[left,right] ×
[bottom,top]`. -/
def Rect.covers (R : Rect) (x y : Int) : Prop :=
  R.left ≤ x ∧ x ≤ R.right ∧ R.bottom ≤ y ∧ y ≤ R.top

instance (R : Rect) (x y : Int) : Decidable (R.covers x y) := by
  unfold Rect.covers; infer_instance

/-- The area `(right-left+1)*(top-bottom+1)` of a rectangle, in exact integer
arithmetic. -/
def area (R : Rect) : Int :=
  (R.right - R.left + 1) * (R.top - R.bottom + 1)

/-- A maximal horizontal run of marked cells: every cell of `[left,right]` is
marked and both neighbours are unmarked. -/
def isRun (m : Int → Bool) (p : Plate) : Prop :=
  p.left ≤ p.right ∧ (∀ x, p.left ≤ x → x ≤ p.right → m x = true) ∧
    m (p.left - 1) = false ∧ m (p.right + 1) = false

/-! ### The row scan -/

/-- The scan state after consuming columns `0, 1, ..., k-1`. -/
def scanState (m : Int → Bool) (k : Nat) : List Plate × Option Int :=
  ((List.range k).map Int.ofNat).foldl (plateStep m) ([], none)

theorem scanState_succ (m : Int → Bool) (k : Nat) :
    scanState m (k + 1) = plateStep m (scanState m k) ((k : Int)) := by
  unfold scanState
  rw [List.range_succ, List.map_append, List.foldl_append]
  rfl

theorem rowPlates_eq_scan (m : Int → Bool) (w : Int) :
    rowPlates m w = (scanState m (w + 1).toNat).1 := rfl

/-- A run of marked cells that has been closed by the scan before reaching
column `k`: it sits in `[0, k-2]`, all its cells are marked and it cannot be
extended (except that the scan never looks left of column `0`). -/
def isRunBelow (m : Int → Bool) (k : Int) (p : Plate) : Prop :=
  0 ≤ p.left ∧ p.left ≤ p.right ∧ p.right + 1 < k ∧
    (∀ x, p.left ≤ x → x ≤ p.right → m x = true) ∧
    (p.left = 0 ∨ m (p.left - 1) = false) ∧ m (p.right + 1) = false

/-- The open-run part of the scan invariant: `plate_start = Some s` after
consuming columns `< k`. -/
def openAt (m : Int → Bool) (k : Int) (s : Int) : Prop :=
  0 ≤ s ∧ s < k ∧ (∀ x, s ≤ x → x < k → m x = true) ∧
    (s = 0 ∨ m (s - 1) = false)

/-- Full invariant of the row scan after consuming columns `< k`. -/
def ScanInv (m : Int → Bool) (k : Nat) (st : List Plate × Option Int) : Prop :=
  (∀ p, p ∈ st.1 ↔ isRunBelow m ((k : Int)) p) ∧
    st.1.Pairwise (fun a b => a.left < b.left) ∧
    (match st.2 with
     | some s => openAt m ((k : Int)) s
     | none => k = 0 ∨ m ((k : Int) - 1) = false)

theorem run_start_unique (m : Int → Bool) (e l₁ l₂ : Int)
    (h01 : 0 ≤ l₁) (h02 : 0 ≤ l₂) (hle1 : l₁ ≤ e) (hle2 : l₂ ≤ e)
    (hall1 : ∀ x, l₁ ≤ x → x ≤ e → m x = true)
    (hall2 : ∀ x, l₂ ≤ x → x ≤ e → m x = true)
    (hedge1 : l₁ = 0 ∨ m (l₁ - 1) = false)
    (hedge2 : l₂ = 0 ∨ m (l₂ - 1) = false) : l₁ = l₂ := by
  rcases lt_trichotomy l₁ l₂ with h | h | h
  · rcases hedge2 with h0 | hm
    · omega
    · have := hall1 (l₂ - 1) (by omega) (by omega)
      rw [hm] at this; cases this
  · exact h
  · rcases hedge1 with h0 | hm
    · omega
    · have := hall2 (l₁ - 1) (by omega) (by omega)
      rw [hm] at this; cases this

theorem run_end_unique (m : Int → Bool) (c r₁ r₂ : Int)
    (hc1 : c ≤ r₁) (hc2 : c ≤ r₂)
    (hall1 : ∀ x, c ≤ x → x ≤ r₁ → m x = true)
    (hall2 : ∀ x, c ≤ x → x ≤ r₂ → m x = true)
    (hedge1 : m (r₁ + 1) = false) (hedge2 : m (r₂ + 1) = false) : r₁ = r₂ := by
  rcases lt_trichotomy r₁ r₂ with h | h | h
  · have := hall2 (r₁ + 1) (by omega) (by omega)
    rw [hedge1] at this; cases this
  · exact h
  · have := hall1 (r₂ + 1) (by omega) (by omega)
    rw [hedge2] at this; cases this

theorem scan_inv (m : Int → Bool) : ∀ k, ScanInv m k (scanState m k) := by
  intro k
  induction k with
  | zero =>
      refine ⟨fun p => ?_, List.Pairwise.nil, Or.inl rfl⟩
      simp only [scanState, List.range_zero, List.map_nil, List.foldl_nil]
      constructor
      · intro h; cases h
      · rintro ⟨h1, h2, h3, -⟩
        simp only [Int.ofNat_zero] at h3; omega
  | succ k ih =>
      rw [scanState_succ]
      rcases hstEq : scanState m k with ⟨acc, os⟩
      rw [hstEq] at ih
      obtain ⟨hmem, hpw, hopen⟩ := ih
      simp only at hmem hpw hopen
      cases os with
      | none =>
          cases hmk : m ((k : Int)) with
          | false =>
              simp only [plateStep, hmk, ScanInv]
              refine ⟨fun p => ?_, hpw, ?_⟩
              · rw [hmem p]
                constructor
                · rintro ⟨h1, h2, h3, h4, h5, h6⟩
                  exact ⟨h1, h2, by omega, h4, h5, h6⟩
                · rintro ⟨h1, h2, h3, h4, h5, h6⟩
                  refine ⟨h1, h2, ?_, h4, h5, h6⟩
                  rcases lt_or_ge (p.right + 1) ((k : Int)) with h | h
                  · exact h
                  · exfalso
                    have hr : p.right = (k : Int) - 1 := by omega
                    rcases hopen with h0 | hmf
                    · subst h0; simp only [Int.ofNat_zero] at hr; omega
                    · have hmt := h4 p.right (by omega) (by omega)
                      rw [hr, hmf] at hmt; cases hmt
              · exact Or.inr (by push_cast; simpa using hmk)
          | true =>
              simp only [plateStep, hmk, ScanInv]
              refine ⟨fun p => ?_, hpw, ?_⟩
              · rw [hmem p]
                constructor
                · rintro ⟨h1, h2, h3, h4, h5, h6⟩
                  exact ⟨h1, h2, by omega, h4, h5, h6⟩
                · rintro ⟨h1, h2, h3, h4, h5, h6⟩
                  refine ⟨h1, h2, ?_, h4, h5, h6⟩
                  rcases lt_or_ge (p.right + 1) ((k : Int)) with h | h
                  · exact h
                  · exfalso
                    have hr : p.right + 1 = (k : Int) := by omega
                    rw [hr, hmk] at h6; cases h6
              · refine ⟨by omega, by omega, fun x hx1 hx2 => ?_, ?_⟩
                · have hxk : x = (k : Int) := by omega
                  rw [hxk]; exact hmk
                · rcases hopen with h0 | hmf
                  · exact Or.inl (by subst h0; rfl)
                  · exact Or.inr hmf
      | some s =>
          obtain ⟨hs0, hsk, hsall, hsedge⟩ := hopen
          cases hmk : m ((k : Int)) with
          | false =>
              simp only [plateStep, hmk, ScanInv]
              refine ⟨fun p => ?_, ?_, ?_⟩
              · rw [List.mem_append, List.mem_singleton, hmem p]
                constructor
                · rintro (⟨h1, h2, h3, h4, h5, h6⟩ | hq)
                  · exact ⟨h1, h2, by omega, h4, h5, h6⟩
                  · subst hq
                    unfold isRunBelow
                    dsimp only
                    refine ⟨hs0, by omega, by omega, ?_, hsedge, ?_⟩
                    · exact fun x hx1 hx2 => hsall x hx1 (by omega)
                    · simpa using hmk
                · rintro ⟨h1, h2, h3, h4, h5, h6⟩
                  rcases lt_or_ge (p.right + 1) ((k : Int)) with h | h
                  · exact Or.inl ⟨h1, h2, h, h4, h5, h6⟩
                  · right
                    have hr : p.right = (k : Int) - 1 := by omega
                    have hl : p.left = s :=
                      run_start_unique m ((k : Int) - 1) p.left s h1 hs0
                        (by omega) (by omega)
                        (fun x hx1 hx2 => h4 x hx1 (by omega))
                        (fun x hx1 hx2 => hsall x hx1 (by omega)) h5 hsedge
                    cases p
                    simp_all
              · rw [List.pairwise_append]
                refine ⟨hpw, List.pairwise_singleton _ _, ?_⟩
                intro a ha b hb
                rw [List.mem_singleton] at hb
                subst hb
                show a.left < s
                rw [hmem a] at ha
                obtain ⟨h1, h2, h3, h4, h5, h6⟩ := ha
                by_contra hcon
                push_neg at hcon
                have := hsall (a.right + 1) (by omega) (by omega)
                rw [h6] at this; cases this
              · exact Or.inr (by push_cast; simpa using hmk)
          | true =>
              simp only [plateStep, hmk, ScanInv]
              refine ⟨fun p => ?_, hpw, ?_⟩
              · rw [hmem p]
                constructor
                · rintro ⟨h1, h2, h3, h4, h5, h6⟩
                  exact ⟨h1, h2, by omega, h4, h5, h6⟩
                · rintro ⟨h1, h2, h3, h4, h5, h6⟩
                  refine ⟨h1, h2, ?_, h4, h5, h6⟩
                  rcases lt_or_ge (p.right + 1) ((k : Int)) with h | h
                  · exact h
                  · exfalso
                    have hr : p.right + 1 = (k : Int) := by omega
                    rw [hr, hmk] at h6; cases h6
              · refine ⟨hs0, by omega, fun x hx1 hx2 => ?_, hsedge⟩
                rcases lt_or_ge x ((k : Int)) with h | h
                · exact hsall x hx1 h
                · have hxk : x = (k : Int) := by omega
                  rw [hxk]; exact hmk

/-- The width bound used by the scan: `0..=width` has `(width+1).toNat`
columns. -/
def scanBound (w : Int) : Int := ((w + 1).toNat : Int)

theorem rowPlates_mem (m : Int → Bool) (w : Int) (p : Plate) :
    p ∈ rowPlates m w ↔ isRunBelow m (scanBound w) p := by
  rw [rowPlates_eq_scan]
  exact (scan_inv m (w + 1).toNat).1 p

theorem rowPlates_pairwise (m : Int → Bool) (w : Int) :
    (rowPlates m w).Pairwise (fun a b => a.left < b.left) := by
  rw [rowPlates_eq_scan]
  exact (scan_inv m (w + 1).toNat).2.1

theorem rowPlates_nodup (m : Int → Bool) (w : Int) : (rowPlates m w).Nodup :=
  (rowPlates_pairwise m w).imp (fun h => by intro he; subst he; omega)

/-- Every cell of an emitted plate is marked (no bounds assumption needed). -/
theorem rowPlates_marked (m : Int → Bool) (w : Int) (p : Plate)
    (hp : p ∈ rowPlates m w) :
    ∀ x, p.left ≤ x → x ≤ p.right → m x = true :=
  ((rowPlates_mem m w p).mp hp).2.2.2.1

theorem rowPlates_le (m : Int → Bool) (w : Int) (p : Plate)
    (hp : p ∈ rowPlates m w) : p.left ≤ p.right :=
  ((rowPlates_mem m w p).mp hp).2.1

/-- The right neighbour of an emitted plate is unmarked, and the plate ends
strictly before the scan bound. -/
theorem rowPlates_right (m : Int → Bool) (w : Int) (p : Plate)
    (hp : p ∈ rowPlates m w) :
    m (p.right + 1) = false ∧ p.right + 1 ≤ w := by
  obtain ⟨h1, h2, h3, h4, h5, h6⟩ := (rowPlates_mem m w p).mp hp
  refine ⟨h6, ?_⟩
  unfold scanBound at h3
  omega

/-- Two emitted plates of one row that cover a common column are equal. -/
theorem rowPlates_covers_unique (m : Int → Bool) (w : Int) (p q : Plate)
    (hp : p ∈ rowPlates m w) (hq : q ∈ rowPlates m w) (x : Int)
    (hpx1 : p.left ≤ x) (hpx2 : x ≤ p.right)
    (hqx1 : q.left ≤ x) (hqx2 : x ≤ q.right) : p = q := by
  obtain ⟨hp1, hp2, hp3, hp4, hp5, hp6⟩ := (rowPlates_mem m w p).mp hp
  obtain ⟨hq1, hq2, hq3, hq4, hq5, hq6⟩ := (rowPlates_mem m w q).mp hq
  have hl : p.left = q.left :=
    run_start_unique m x p.left q.left hp1 hq1 hpx1 hqx1
      (fun z hz1 hz2 => hp4 z hz1 (by omega))
      (fun z hz1 hz2 => hq4 z hz1 (by omega)) hp5 hq5
  have hr : p.right = q.right :=
    run_end_unique m x p.right q.right hpx2 hqx2
      (fun z hz1 hz2 => hp4 z (by omega) hz2)
      (fun z hz1 hz2 => hq4 z (by omega) hz2) hp6 hq6
  cases p; cases q; simp_all

/-- Under the declared bounds, the closed-run predicate of the scan coincides
with being a maximal run. -/
theorem isRunBelow_iff_isRun (m : Int → Bool) (w : Int)
    (hb : ∀ x, m x = true → 0 ≤ x ∧ x < w) (p : Plate) :
    isRunBelow m (scanBound w) p ↔ isRun m p := by
  constructor
  · rintro ⟨h1, h2, h3, h4, h5, h6⟩
    refine ⟨h2, h4, ?_, h6⟩
    rcases h5 with h0 | hm
    · rw [h0]
      cases hml : m (-1) with
      | false => simpa using hml
      | true => have := hb (-1) hml; omega
    · exact hm
  · rintro ⟨h1, h2, h3, h4⟩
    have hl := hb p.left (h2 p.left le_rfl h1)
    have hr := hb p.right (h2 p.right h1 le_rfl)
    refine ⟨by omega, h1, ?_, h2, Or.inr h3, h4⟩
    unfold scanBound
    omega

/-- Bounded rows: a maximal run is emitted as a plate. -/
theorem isRun_mem_rowPlates (m : Int → Bool) (w : Int)
    (hb : ∀ x, m x = true → 0 ≤ x ∧ x < w) (p : Plate) (h : isRun m p) :
    p ∈ rowPlates m w :=
  (rowPlates_mem m w p).mpr ((isRunBelow_iff_isRun m w hb p).mpr h)

/-- Expanding a marked cell leftwards to the start of its run. -/
theorem run_expand_left (m : Int → Bool)
    (hb : ∀ x, m x = true → 0 ≤ x) :
    ∀ n : Nat, ∀ x : Int, x.toNat ≤ n → m x = true →
      ∃ l, l ≤ x ∧ (∀ j, l ≤ j → j ≤ x → m j = true) ∧ m (l - 1) = false := by
  intro n
  induction n with
  | zero =>
      intro x hx hm
      have h0 : 0 ≤ x := hb x hm
      have hx0 : x = 0 := by omega
      subst hx0
      refine ⟨0, le_rfl, ?_, ?_⟩
      · intro j hj1 hj2
        have : j = 0 := by omega
        rw [this]; exact hm
      · cases hml : m (-1) with
        | false => simpa using hml
        | true => have := hb (-1) hml; omega
  | succ n ihn =>
      intro x hx hm
      cases hml : m (x - 1) with
      | false =>
          exact ⟨x, le_rfl, fun j hj1 hj2 => by
            have : j = x := by omega
            rw [this]; exact hm, hml⟩
      | true =>
          have h0 : 0 ≤ x - 1 := hb (x - 1) hml
          obtain ⟨l, hl1, hl2, hl3⟩ := ihn (x - 1) (by omega) hml
          refine ⟨l, by omega, fun j hj1 hj2 => ?_, hl3⟩
          rcases lt_or_ge j x with h | h
          · exact hl2 j hj1 (by omega)
          · have : j = x := by omega
            rw [this]; exact hm

/-- Expanding a marked cell rightwards to the end of its run. -/
theorem run_expand_right (m : Int → Bool) (w : Int)
    (hb : ∀ x, m x = true → x < w) :
    ∀ n : Nat, ∀ x : Int, (w - x).toNat ≤ n → m x = true →
      ∃ r, x ≤ r ∧ (∀ j, x ≤ j → j ≤ r → m j = true) ∧ m (r + 1) = false := by
  intro n
  induction n with
  | zero =>
      intro x hx hm
      have := hb x hm
      omega
  | succ n ihn =>
      intro x hx hm
      cases hmr : m (x + 1) with
      | false =>
          exact ⟨x, le_rfl, fun j hj1 hj2 => by
            have : j = x := by omega
            rw [this]; exact hm, hmr⟩
      | true =>
          have hw := hb (x + 1) hmr
          have hwx := hb x hm
          obtain ⟨r, hr1, hr2, hr3⟩ := ihn (x + 1) (by omega) hmr
          refine ⟨r, by omega, fun j hj1 hj2 => ?_, hr3⟩
          rcases lt_or_ge j (x + 1) with h | h
          · have : j = x := by omega
            rw [this]; exact hm
          · exact hr2 j h hj2

/-- Every marked cell of a bounded row lies inside an emitted plate. -/
theorem rowPlates_cover (m : Int → Bool) (w : Int)
    (hb : ∀ x, m x = true → 0 ≤ x ∧ x < w) (x : Int) (hm : m x = true) :
    ∃ p ∈ rowPlates m w, p.left ≤ x ∧ x ≤ p.right := by
  obtain ⟨l, hl1, hl2, hl3⟩ :=
    run_expand_left m (fun z hz => (hb z hz).1) x.toNat x le_rfl hm
  obtain ⟨r, hr1, hr2, hr3⟩ :=
    run_expand_right m w (fun z hz => (hb z hz).2) (w - x).toNat x le_rfl hm
  have hrun : isRun m ⟨l, r⟩ := by
    refine ⟨by dsimp only; omega, fun z hz1 hz2 => ?_, by simpa using hl3,
      by simpa using hr3⟩
    rcases le_or_lt z x with h | h
    · exact hl2 z hz1 h
    · exact hr2 z (by omega) hz2
  exact ⟨⟨l, r⟩, isRun_mem_rowPlates m w hb _ hrun, hl1, hr1⟩

/-! ### The vertical merge -/

/-- The plate list of row `y` of a stack (empty beyond the stack). -/
def rowAt (S : List (List Plate)) (y : Nat) : List Plate :=
  (S[y]?).getD []

/-- The `prev_row` variable at the start of iteration `y`. -/
def prevAt (S : List (List Plate)) : Nat → List Plate
  | 0 => []
  | y + 1 => rowAt S y

/-- Plate `p` occurs in every row `b..t` and the run cannot be extended
downwards. -/
def openRun (S : List (List Plate)) (p : Plate) (b t : Nat) : Prop :=
  b ≤ t ∧ (∀ j, b ≤ j → j ≤ t → p ∈ rowAt S j) ∧
    (b = 0 ∨ p ∉ rowAt S (b - 1))

/-- A maximal vertical run of plate `p`: rows `b..t` all contain `p` and
neither neighbouring row does. -/
def isMaxRun (S : List (List Plate)) (p : Plate) (b t : Nat) : Prop :=
  openRun S p b t ∧ p ∉ rowAt S (t + 1)

/-- The rectangle grown from plate `p` over rows `b..t`. -/
def rectOfRun (p : Plate) (b t : Nat) : Rect :=
  ⟨p.left, p.right, (t : Int), (b : Int)⟩

theorem rowAt_eq_nil_of_ge (S : List (List Plate)) (y : Nat)
    (h : S.length ≤ y) : rowAt S y = [] := by
  unfold rowAt
  rw [List.getElem?_eq_none h]
  rfl

theorem lt_length_of_mem_rowAt (S : List (List Plate)) (y : Nat) (p : Plate)
    (h : p ∈ rowAt S y) : y < S.length := by
  by_contra hc
  push_neg at hc
  rw [rowAt_eq_nil_of_ge S y hc] at h
  cases h

theorem rowAt_append_nil (S : List (List Plate)) (y : Nat) :
    rowAt (S ++ [[]]) y = rowAt S y := by
  unfold rowAt
  rw [List.getElem?_append]
  split
  · rfl
  · next h =>
      push_neg at h
      rw [List.getElem?_eq_none h]
      rcases Nat.lt_or_ge (y - S.length) 1 with h2 | h2
      · have h0 : y - S.length = 0 := by omega
        rw [h0]
        rfl
      · rw [List.getElem?_eq_none (by simpa using h2)]

theorem openRun_exists (S : List (List Plate)) (p : Plate) :
    ∀ t, p ∈ rowAt S t → ∃ b, openRun S p b t := by
  intro t
  induction t with
  | zero =>
      intro h
      refine ⟨0, le_rfl, fun j hj1 hj2 => ?_, Or.inl rfl⟩
      have : j = 0 := by omega
      rw [this]; exact h
  | succ t iht =>
      intro h
      by_cases hp : p ∈ rowAt S t
      · obtain ⟨b, hb1, hb2, hb3⟩ := iht hp
        refine ⟨b, by omega, fun j hj1 hj2 => ?_, hb3⟩
        rcases lt_or_ge j (t + 1) with hj | hj
        · exact hb2 j hj1 (by omega)
        · have : j = t + 1 := by omega
          rw [this]; exact h
      · refine ⟨t + 1, le_rfl, fun j hj1 hj2 => ?_, Or.inr (by simpa using hp)⟩
        have : j = t + 1 := by omega
        rw [this]; exact h

theorem closeUp_exists (S : List (List Plate)) (p : Plate) :
    ∀ n y, S.length - y ≤ n → p ∈ rowAt S y →
      ∃ t, y ≤ t ∧ (∀ j, y ≤ j → j ≤ t → p ∈ rowAt S j) ∧
        p ∉ rowAt S (t + 1) := by
  intro n
  induction n with
  | zero =>
      intro y hn h
      have := lt_length_of_mem_rowAt S y p h
      omega
  | succ n ihn =>
      intro y hn h
      by_cases hp : p ∈ rowAt S (y + 1)
      · have hlt := lt_length_of_mem_rowAt S (y + 1) p hp
        obtain ⟨t, ht1, ht2, ht3⟩ := ihn (y + 1) (by omega) hp
        refine ⟨t, by omega, fun j hj1 hj2 => ?_, ht3⟩
        rcases lt_or_ge j (y + 1) with hj | hj
        · have : j = y := by omega
          rw [this]; exact h
        · exact ht2 j hj hj2
      · refine ⟨y, le_rfl, fun j hj1 hj2 => ?_, hp⟩
        have : j = y := by omega
        rw [this]; exact h

theorem maxRun_exists (S : List (List Plate)) (p : Plate) (y : Nat)
    (h : p ∈ rowAt S y) : ∃ b t, isMaxRun S p b t ∧ b ≤ y ∧ y ≤ t := by
  obtain ⟨b, hb1, hb2, hb3⟩ := openRun_exists S p y h
  obtain ⟨t, ht1, ht2, ht3⟩ := closeUp_exists S p (S.length - y) y le_rfl h
  refine ⟨b, t, ⟨⟨by omega, fun j hj1 hj2 => ?_, hb3⟩, ht3⟩, hb1, ht1⟩
  rcases le_or_lt j y with hj | hj
  · exact hb2 j hj1 hj
  · exact ht2 j (by omega) hj2

theorem openRun_start_unique (S : List (List Plate)) (p : Plate)
    (b₁ b₂ t : Nat) (h₁ : openRun S p b₁ t) (h₂ : openRun S p b₂ t) :
    b₁ = b₂ := by
  obtain ⟨hb1, hall1, hedge1⟩ := h₁
  obtain ⟨hb2, hall2, hedge2⟩ := h₂
  rcases lt_trichotomy b₁ b₂ with h | h | h
  · rcases hedge2 with h0 | hnm
    · omega
    · exact absurd (hall1 (b₂ - 1) (by omega) (by omega)) hnm
  · exact h
  · rcases hedge1 with h0 | hnm
    · omega
    · exact absurd (hall2 (b₁ - 1) (by omega) (by omega)) hnm

theorem maxRun_unique (S : List (List Plate)) (p : Plate) (b₁ t₁ b₂ t₂ y : Nat)
    (h₁ : isMaxRun S p b₁ t₁) (h₂ : isMaxRun S p b₂ t₂)
    (hy1 : b₁ ≤ y) (hy2 : y ≤ t₁) (hy3 : b₂ ≤ y) (hy4 : y ≤ t₂) :
    b₁ = b₂ ∧ t₁ = t₂ := by
  obtain ⟨⟨hb1, hall1, hedge1⟩, htop1⟩ := h₁
  obtain ⟨⟨hb2, hall2, hedge2⟩, htop2⟩ := h₂
  have ht : t₁ = t₂ := by
    rcases lt_trichotomy t₁ t₂ with h | h | h
    · exact absurd (hall2 (t₁ + 1) (by omega) (by omega)) htop1
    · exact h
    · exact absurd (hall1 (t₂ + 1) (by omega) (by omega)) htop2
  subst ht
  exact ⟨openRun_start_unique S p b₁ b₂ t₁ ⟨hb1, hall1, hedge1⟩
    ⟨hb2, hall2, hedge2⟩, rfl⟩

/-- The value written for `plate` by `entry(...).and_modify(...).or_insert(...)`. -/
def newOrBump (y : Int) (st : MergeState) (p : Plate) : Rect :=
  match st.builder p with
  | some e => bumpTop e
  | none => ⟨p.left, p.right, y, y⟩

theorem emitStep_builder (cur : List Plate) (st : MergeState) (a : Plate) :
    (emitStep cur st a).builder =
      (fun p => if p = a ∧ a ∉ cur then none else st.builder p) := by
  funext p
  unfold emitStep
  by_cases hac : a ∈ cur
  · rw [if_pos hac, if_neg (fun hc => hc.2 hac)]
  · rw [if_neg hac]
    rcases hba : st.builder a with - | r
    · dsimp only
      by_cases hpa : p = a
      · subst hpa
        rw [if_pos ⟨rfl, hac⟩, hba]
      · rw [if_neg (fun hc => hpa hc.1)]
    · dsimp only
      by_cases hpa : p = a
      · subst hpa
        rw [if_pos rfl, if_pos ⟨rfl, hac⟩]
      · rw [if_neg hpa, if_neg (fun hc => hpa hc.1)]

theorem emitStep_rects (cur : List Plate) (st : MergeState) (a : Plate) :
    (emitStep cur st a).rects =
      st.rects ++ (match (if a ∈ cur then none else st.builder a) with
        | some r => [r]
        | none => []) := by
  unfold emitStep
  by_cases hac : a ∈ cur
  · rw [if_pos hac, if_pos hac]
    simp
  · rw [if_neg hac, if_neg hac]
    rcases hba : st.builder a with - | r
    · simp
    · simp

theorem emit_fold (cur : List Plate) :
    ∀ (ps : List Plate) (st : MergeState), ps.Nodup →
      (ps.foldl (emitStep cur) st).builder =
        (fun p => if p ∈ ps ∧ p ∉ cur then none else st.builder p) ∧
      (ps.foldl (emitStep cur) st).rects =
        st.rects ++ ps.filterMap
          (fun p => if p ∈ cur then none else st.builder p) := by
  intro ps
  induction ps with
  | nil =>
      intro st hnd
      refine ⟨funext fun p => ?_, by simp⟩
      simp
  | cons a ps ihp =>
      intro st hnd
      rw [List.nodup_cons] at hnd
      obtain ⟨hna, hnd⟩ := hnd
      simp only [List.foldl_cons]
      obtain ⟨ihb, ihr⟩ := ihp (emitStep cur st a) hnd
      have hcongr : List.filterMap
          (fun p => if p ∈ cur then none else (emitStep cur st a).builder p) ps =
          List.filterMap
            (fun p => if p ∈ cur then none else st.builder p) ps := by
        apply List.filterMap_congr
        intro p hps
        have hpa : p ≠ a := fun he => hna (he ▸ hps)
        rw [emitStep_builder]
        dsimp only
        by_cases hpc : p ∈ cur
        · rw [if_pos hpc, if_pos hpc]
        · rw [if_neg hpc, if_neg hpc, if_neg (fun hc => hpa hc.1)]
      constructor
      · rw [ihb, emitStep_builder]
        funext p
        dsimp only
        by_cases hpc : p ∈ cur
        · rw [if_neg (show ¬(p ∈ ps ∧ p ∉ cur) from fun hc => hc.2 hpc),
            if_neg (show ¬(p = a ∧ a ∉ cur) from fun hc => hc.2 (hc.1 ▸ hpc)),
            if_neg (show ¬(p ∈ a :: ps ∧ p ∉ cur) from fun hc => hc.2 hpc)]
        · by_cases hpa : p = a
          · subst hpa
            rw [if_neg (fun hc => hna hc.1), if_pos ⟨rfl, hpc⟩,
              if_pos ⟨List.mem_cons_self p ps, hpc⟩]
          · by_cases hps : p ∈ ps
            · rw [if_pos ⟨hps, hpc⟩, if_pos ⟨List.mem_cons_of_mem a hps, hpc⟩]
            · rw [if_neg (fun hc => hps hc.1), if_neg (fun hc => hpa hc.1),
                if_neg (fun hc => (List.mem_cons.mp hc.1).elim hpa hps)]
      · rw [ihr, emitStep_rects, hcongr, List.filterMap_cons, List.append_assoc]
        congr 1
        by_cases hac : a ∈ cur
        · simp [hac]
        · rcases hba : st.builder a with - | r
          · simp [hac, hba]
          · simp [hac, hba]

theorem insert_fold (y : Int) :
    ∀ (ps : List Plate) (st : MergeState), ps.Nodup →
      (ps.foldl (insertStep y) st).rects = st.rects ∧
      (ps.foldl (insertStep y) st).builder =
        (fun p => if p ∈ ps then some (newOrBump y st p) else st.builder p) := by
  intro ps
  induction ps with
  | nil =>
      intro st hnd
      exact ⟨rfl, funext fun p => by simp⟩
  | cons a ps ihp =>
      intro st hnd
      rw [List.nodup_cons] at hnd
      obtain ⟨hna, hnd⟩ := hnd
      simp only [List.foldl_cons]
      obtain ⟨ihr, ihb⟩ := ihp (insertStep y st a) hnd
      have hsb : (insertStep y st a).builder =
          (fun p => if p = a then some (newOrBump y st a) else st.builder p) :=
        rfl
      constructor
      · rw [ihr]; rfl
      · rw [ihb]
        funext p
        by_cases hps : p ∈ ps
        · have hpa : p ≠ a := fun he => hna (he ▸ hps)
          rw [if_pos hps, if_pos (List.mem_cons_of_mem a hps)]
          have hb : (insertStep y st a).builder p = st.builder p := by
            rw [hsb]
            dsimp only
            rw [if_neg hpa]
          unfold newOrBump
          rw [hb]
        · by_cases hpa : p = a
          · subst hpa
            rw [if_neg hps, hsb]
            dsimp only
            rw [if_pos rfl, if_pos (List.mem_cons_self p ps)]
          · rw [if_neg hps, hsb]
            dsimp only
            rw [if_neg hpa,
              if_neg (fun hc => (List.mem_cons.mp hc).elim hpa hps)]

theorem rectOfRun_inj (p q : Plate) (b t c u : Nat)
    (h : rectOfRun p b t = rectOfRun q c u) : p = q ∧ b = c ∧ t = u := by
  unfold rectOfRun at h
  rw [Rect.mk.injEq] at h
  obtain ⟨h1, h2, h3, h4⟩ := h
  refine ⟨?_, by omega, by omega⟩
  cases p; cases q; simp_all

theorem bumpTop_rectOfRun (p : Plate) (b t : Nat) :
    bumpTop (rectOfRun p b t) = rectOfRun p b (t + 1) := by
  unfold bumpTop rectOfRun
  rw [Rect.mk.injEq]
  refine ⟨rfl, rfl, by push_cast; ring, rfl⟩

/-- The invariant of the merging loop at the start of iteration `y`: the
builder holds exactly the rectangles of runs that are still open at row
`y - 1`, and the emitted list holds exactly the maximal runs that ended at
row `y - 2` or earlier, without duplicates. -/
def Inv (S : List (List Plate)) (y : Nat) (st : MergeState) : Prop :=
  (∀ p R, st.builder p = some R ↔
    ∃ b y', y = y' + 1 ∧ openRun S p b y' ∧ R = rectOfRun p b y') ∧
  (∀ R, R ∈ st.rects ↔
    ∃ p b t, isMaxRun S p b t ∧ t + 2 ≤ y ∧ R = rectOfRun p b t) ∧
  st.rects.Nodup

theorem inv_init (S : List (List Plate)) : Inv S 0 initState := by
  refine ⟨fun p R => ?_, fun R => ?_, List.nodup_nil⟩
  · constructor
    · intro h; simp [initState] at h
    · rintro ⟨b, y', hy, -, -⟩; omega
  · constructor
    · intro h; simp [initState] at h
    · rintro ⟨p, b, t, -, ht, -⟩; omega

theorem inv_step (S : List (List Plate)) (hrows : ∀ j, (rowAt S j).Nodup)
    (y : Nat) (st : MergeState) (hInv : Inv S y st) :
    Inv S (y + 1) (rowStep (y : Int) (prevAt S y) (rowAt S y) st) := by
  obtain ⟨hBuild, hRects, hNodup⟩ := hInv
  have hprevNd : (prevAt S y).Nodup := by
    cases y with
    | zero => exact List.nodup_nil
    | succ n => exact hrows n
  have hcurNd : (rowAt S y).Nodup := hrows y
  obtain ⟨hb1, hr1⟩ := emit_fold (rowAt S y) (prevAt S y) st hprevNd
  set st1 := (prevAt S y).foldl (emitStep (rowAt S y)) st with hst1
  obtain ⟨hr2, hb2⟩ := insert_fold (y : Int) (rowAt S y) st1 hcurNd
  set st2 := (rowAt S y).foldl (insertStep (y : Int)) st1 with hst2
  have hgoal : rowStep (y : Int) (prevAt S y) (rowAt S y) st = st2 := rfl
  rw [hgoal]
  have hb1p : ∀ p, st1.builder p =
      if p ∈ prevAt S y ∧ p ∉ rowAt S y then none else st.builder p :=
    fun p => by rw [hb1]
  have hb2p : ∀ p, st2.builder p =
      if p ∈ rowAt S y then some (newOrBump (y : Int) st1 p)
      else st1.builder p :=
    fun p => by rw [hb2]
  have hF1 : ∀ p R, st.builder p = some R → p ∈ prevAt S y := by
    intro p R h
    obtain ⟨b, y', hy, hrun, -⟩ := (hBuild p R).mp h
    subst hy
    exact hrun.2.1 y' hrun.1 le_rfl
  refine ⟨fun p R => ?_, fun R => ?_, ?_⟩
  · -- builder characterisation at the start of iteration y + 1
    rw [hb2p p]
    by_cases hc : p ∈ rowAt S y
    · rw [if_pos hc]
      have hsame : st1.builder p = st.builder p := by
        rw [hb1p p, if_neg (fun hcon => hcon.2 hc)]
      have hKey : ∃ b, openRun S p b y ∧
          newOrBump (y : Int) st1 p = rectOfRun p b y := by
        rcases hsp : st.builder p with - | e
        · refine ⟨y, ⟨le_rfl, fun j hj1 hj2 => ?_, ?_⟩, ?_⟩
          · have hj : j = y := by omega
            rw [hj]; exact hc
          · cases y with
            | zero => exact Or.inl rfl
            | succ n =>
                refine Or.inr (fun hmem => ?_)
                obtain ⟨b, hb⟩ := openRun_exists S p n hmem
                have hcontra := (hBuild p _).mpr ⟨b, n, rfl, hb, rfl⟩
                rw [hsp] at hcontra
                exact Option.noConfusion hcontra
          · unfold newOrBump
            rw [hsame, hsp]
            show (⟨p.left, p.right, (y : Int), (y : Int)⟩ : Rect) =
              rectOfRun p y y
            rfl
        · obtain ⟨b, y', hy, hrun, hrect⟩ := (hBuild p e).mp hsp
          subst hy
          refine ⟨b, ⟨hrun.1.trans (Nat.le_succ y'), fun j hj1 hj2 => ?_,
            hrun.2.2⟩, ?_⟩
          · rcases Nat.lt_or_ge j (y' + 1) with hj | hj
            · exact hrun.2.1 j hj1 (by omega)
            · have hje : j = y' + 1 := by omega
              rw [hje]; exact hc
          · unfold newOrBump
            rw [hsame, hsp]
            show bumpTop e = rectOfRun p b (y' + 1)
            rw [hrect, bumpTop_rectOfRun]
      obtain ⟨b0, hrun0, hnb0⟩ := hKey
      constructor
      · intro heq
        injection heq with heq
        exact ⟨b0, y, rfl, hrun0, by rw [← heq, hnb0]⟩
      · rintro ⟨b2, y2, heq, hrun2, hR⟩
        have hy2 : y2 = y := by omega
        subst hy2
        have hbb : b0 = b2 := openRun_start_unique S p b0 b2 y2 hrun0 hrun2
        rw [hR, ← hbb, ← hnb0]
    · rw [if_neg hc]
      have hnone : st1.builder p = none := by
        rw [hb1p p]
        by_cases hpp : p ∈ prevAt S y
        · rw [if_pos ⟨hpp, hc⟩]
        · rw [if_neg (fun hcon => hpp hcon.1)]
          rcases hsp : st.builder p with - | e
          · rfl
          · exact absurd (hF1 p e hsp) hpp
      rw [hnone]
      constructor
      · exact fun h => Option.noConfusion h
      · rintro ⟨b2, y2, heq, hrun2, -⟩
        have hy2 : y2 = y := by omega
        subst hy2
        exact absurd (hrun2.2.1 y2 hrun2.1 le_rfl) hc
  · -- rects characterisation at the start of iteration y + 1
    rw [hr2, hr1, List.mem_append, List.mem_filterMap]
    constructor
    · rintro (hold | ⟨p, hp, hfp⟩)
      · obtain ⟨p, b, t, hmax, ht, hR⟩ := (hRects R).mp hold
        exact ⟨p, b, t, hmax, by omega, hR⟩
      · by_cases hpc : p ∈ rowAt S y
        · rw [if_pos hpc] at hfp
          exact Option.noConfusion hfp
        · rw [if_neg hpc] at hfp
          obtain ⟨b, y', hy, hrun, hrect⟩ := (hBuild p R).mp hfp
          subst hy
          exact ⟨p, b, y', ⟨hrun, hpc⟩, by omega, hrect⟩
    · rintro ⟨p, b, t, hmax, ht, hR⟩
      rcases Nat.lt_or_ge (t + 2) (y + 1) with hlt | hge
      · exact Or.inl ((hRects R).mpr ⟨p, b, t, hmax, by omega, hR⟩)
      · have hty : t + 1 = y := by omega
        right
        refine ⟨p, ?_, ?_⟩
        · have hmem : p ∈ rowAt S t := hmax.1.2.1 t hmax.1.1 le_rfl
          rw [← hty]
          exact hmem
        · have hpc : p ∉ rowAt S y := by rw [← hty]; exact hmax.2
          rw [if_neg hpc, hR]
          exact (hBuild p _).mpr ⟨b, t, hty.symm, hmax.1, rfl⟩
  · -- the emitted list stays duplicate-free
    rw [hr2, hr1]
    refine List.Nodup.append hNodup ?_ ?_
    · refine List.Nodup.filterMap ?_ hprevNd
      intro p q R hpR hqR
      rw [Option.mem_def] at hpR hqR
      by_cases hpc : p ∈ rowAt S y
      · rw [if_pos hpc] at hpR
        exact Option.noConfusion hpR
      · rw [if_neg hpc] at hpR
        by_cases hqc : q ∈ rowAt S y
        · rw [if_pos hqc] at hqR
          exact Option.noConfusion hqR
        · rw [if_neg hqc] at hqR
          obtain ⟨b, y', hy, hrun, hrect⟩ := (hBuild p R).mp hpR
          obtain ⟨c, z', hz, hqrun, hqrect⟩ := (hBuild q R).mp hqR
          rw [hrect] at hqrect
          exact (rectOfRun_inj p q b y' c z' hqrect).1
    · intro R hR1 hR2
      obtain ⟨p, b, t, hmax, ht, hRe⟩ := (hRects R).mp hR1
      rw [List.mem_filterMap] at hR2
      obtain ⟨q, hq, hfq⟩ := hR2
      by_cases hqc : q ∈ rowAt S y
      · rw [if_pos hqc] at hfq
        exact Option.noConfusion hfq
      · rw [if_neg hqc] at hfq
        obtain ⟨c, z', hz, hqrun, hqrect⟩ := (hBuild q R).mp hfq
        rw [hRe] at hqrect
        obtain ⟨-, -, hteq⟩ := rectOfRun_inj p q b t c z' hqrect
        omega

theorem loop_inv (S : List (List Plate)) (hrows : ∀ j, (rowAt S j).Nodup) :
    ∀ (rows : List (List Plate)) (y : Nat) (st : MergeState),
      rows = S.drop y → y ≤ S.length → Inv S y st →
      Inv S S.length (mergeLoop y (prevAt S y) rows st) := by
  intro rows
  induction rows with
  | nil =>
      intro y st hdrop hle hInv
      have hlen := congrArg List.length hdrop
      simp only [List.length_nil, List.length_drop] at hlen
      have hy : y = S.length := by omega
      subst hy
      exact hInv
  | cons current rest ih =>
      intro y st hdrop hle hInv
      have hgot : S[y]? = some current := by
        have h0 : (S.drop y)[0]? = some current := by
          rw [← hdrop]
          simp
        rw [List.getElem?_drop] at h0
        simpa using h0
      have hcur : rowAt S y = current := by
        unfold rowAt
        rw [hgot]
        rfl
      subst hcur
      have hrest : rest = S.drop (y + 1) := by
        have h1 : (S.drop y).drop 1 = S.drop (y + 1) := List.drop_drop 1 y S
        rw [← h1, ← hdrop]
        rfl
      have hylt : y < S.length := (List.getElem?_eq_some.mp hgot).1
      have hnext := inv_step S hrows y st hInv
      exact ih (y + 1) _ hrest (by omega) hnext

/-- Full characterisation of the rectangles produced by the merging loop on a
stack whose rows are duplicate-free: they are exactly the maximal vertical
runs that end at least two rows before the end of the stack. -/
theorem mergeLoop_spec (S : List (List Plate)) (hrows : ∀ j, (rowAt S j).Nodup) :
    (∀ R, R ∈ (mergeLoop 0 [] S initState).rects ↔
      ∃ p b t, isMaxRun S p b t ∧ t + 2 ≤ S.length ∧ R = rectOfRun p b t) ∧
    (mergeLoop 0 [] S initState).rects.Nodup := by
  have h := loop_inv S hrows S 0 initState rfl (Nat.zero_le _) (inv_init S)
  exact ⟨h.2.1, h.2.2⟩

/-! ### The full decomposition -/

theorem rowAt_plateStack (m : Int → Int → Bool) (w h : Int) (j : Nat) :
    rowAt (plateStack m w h) j =
      if j < h.toNat then rowPlates (fun x => m x (j : Int)) w else [] := by
  unfold rowAt plateStack intRange
  rw [List.getElem?_map, List.getElem?_map]
  by_cases hj : j < h.toNat
  · rw [List.getElem?_range hj, if_pos hj]
    rfl
  · rw [List.getElem?_eq_none (by simpa using Nat.le_of_not_lt hj), if_neg hj]
    rfl

theorem rowAt_stack_nodup (m : Int → Int → Bool) (w h : Int) (j : Nat) :
    (rowAt (plateStack m w h ++ [[]]) j).Nodup := by
  rw [rowAt_append_nil, rowAt_plateStack]
  split
  · exact rowPlates_nodup _ _
  · exact List.nodup_nil

theorem isMaxRun_append_nil (S : List (List Plate)) (p : Plate) (b t : Nat) :
    isMaxRun (S ++ [[]]) p b t ↔ isMaxRun S p b t := by
  unfold isMaxRun openRun
  simp only [rowAt_append_nil]

theorem plateStack_length (m : Int → Int → Bool) (w h : Int) :
    (plateStack m w h).length = h.toNat := by
  unfold plateStack intRange
  rw [List.length_map, List.length_map, List.length_range]

/-- The rectangles produced by the decomposition are exactly the maximal
vertical runs of the partition's plate stack. -/
theorem doorRectsP_mem (m : Int → Int → Bool) (w h : Int) (R : Rect) :
    R ∈ doorRectsP m w h ↔
      ∃ p b t, isMaxRun (plateStack m w h) p b t ∧ R = rectOfRun p b t := by
  unfold doorRectsP
  rw [(mergeLoop_spec _ (rowAt_stack_nodup m w h)).1 R]
  constructor
  · rintro ⟨p, b, t, hmax, -, hR⟩
    exact ⟨p, b, t, (isMaxRun_append_nil _ p b t).mp hmax, hR⟩
  · rintro ⟨p, b, t, hmax, hR⟩
    refine ⟨p, b, t, (isMaxRun_append_nil _ p b t).mpr hmax, ?_, hR⟩
    have hmem : p ∈ rowAt (plateStack m w h) t := hmax.1.2.1 t hmax.1.1 le_rfl
    rw [rowAt_plateStack] at hmem
    by_cases hj : t < h.toNat
    · have hlen : (plateStack m w h ++ [[]]).length = h.toNat + 1 := by
        rw [List.length_append, plateStack_length]
        rfl
      omega
    · rw [if_neg hj] at hmem
      cases hmem

theorem doorRectsP_nodup (m : Int → Int → Bool) (w h : Int) :
    (doorRectsP m w h).Nodup :=
  (mergeLoop_spec _ (rowAt_stack_nodup m w h)).2

/-- A covered cell of an emitted rectangle corresponds to a plate of the
covered row of that partition. -/
theorem doorRectsP_covers (m : Int → Int → Bool) (w h : Int) (R : Rect)
    (hR : R ∈ doorRectsP m w h) (x yi : Int) (hc : R.covers x yi) :
    ∃ j : Nat, (j : Int) = yi ∧ j < h.toNat ∧
      ∃ p ∈ rowPlates (fun z => m z (j : Int)) w,
        p.left ≤ x ∧ x ≤ p.right := by
  obtain ⟨p, b, t, hmax, hrect⟩ := (doorRectsP_mem m w h R).mp hR
  subst hrect
  obtain ⟨hxl, hxr, hyb, hyt⟩ := hc
  have hyb2 : (b : Int) ≤ yi := hyb
  have hyt2 : yi ≤ (t : Int) := hyt
  have hy0 : 0 ≤ yi := by omega
  have hj : ((yi.toNat : Nat) : Int) = yi := Int.toNat_of_nonneg hy0
  have hbj : b ≤ yi.toNat := by omega
  have hjt : yi.toNat ≤ t := by omega
  have hmem : p ∈ rowAt (plateStack m w h) yi.toNat := hmax.1.2.1 _ hbj hjt
  rw [rowAt_plateStack] at hmem
  by_cases hjh : yi.toNat < h.toNat
  · rw [if_pos hjh] at hmem
    exact ⟨yi.toNat, hj, hjh, p, hmem, hxl, hxr⟩
  · rw [if_neg hjh] at hmem
    cases hmem

/-- Every cell of a plate of a scanned row is covered by some emitted
rectangle. -/
theorem doorRectsP_cell_covered (m : Int → Int → Bool) (w h : Int)
    (j : Nat) (hj : j < h.toNat) (p : Plate)
    (hp : p ∈ rowPlates (fun z => m z (j : Int)) w) (x : Int)
    (hx1 : p.left ≤ x) (hx2 : x ≤ p.right) :
    ∃ R ∈ doorRectsP m w h, R.covers x (j : Int) := by
  have hmem : p ∈ rowAt (plateStack m w h) j := by
    rw [rowAt_plateStack, if_pos hj]
    exact hp
  obtain ⟨b, t, hmax, hbj, hjt⟩ := maxRun_exists (plateStack m w h) p j hmem
  refine ⟨rectOfRun p b t, (doorRectsP_mem m w h _).mpr ⟨p, b, t, hmax, rfl⟩,
    hx1, hx2, ?_, ?_⟩
  · show (b : Int) ≤ (j : Int)
    omega
  · show (j : Int) ≤ (t : Int)
    omega

/-- Two emitted rectangles of the same partition sharing one cell are equal
(no bounds assumption needed). -/
theorem doorRectsP_covers_eq (m : Int → Int → Bool) (w h : Int) (R1 R2 : Rect)
    (h1 : R1 ∈ doorRectsP m w h) (h2 : R2 ∈ doorRectsP m w h)
    (x yi : Int) (hc1 : R1.covers x yi) (hc2 : R2.covers x yi) : R1 = R2 := by
  obtain ⟨p1, b1, t1, hmax1, hR1⟩ := (doorRectsP_mem m w h R1).mp h1
  obtain ⟨p2, b2, t2, hmax2, hR2⟩ := (doorRectsP_mem m w h R2).mp h2
  subst hR1
  subst hR2
  obtain ⟨hx1, hx2, hy1, hy2⟩ := hc1
  obtain ⟨hx3, hx4, hy3, hy4⟩ := hc2
  have hy1b : (b1 : Int) ≤ yi := hy1
  have hy2b : yi ≤ (t1 : Int) := hy2
  have hy3b : (b2 : Int) ≤ yi := hy3
  have hy4b : yi ≤ (t2 : Int) := hy4
  have hj : ((yi.toNat : Nat) : Int) = yi := Int.toNat_of_nonneg (by omega)
  have hmem1 : p1 ∈ rowAt (plateStack m w h) yi.toNat :=
    hmax1.1.2.1 _ (by omega) (by omega)
  have hmem2 : p2 ∈ rowAt (plateStack m w h) yi.toNat :=
    hmax2.1.2.1 _ (by omega) (by omega)
  rw [rowAt_plateStack] at hmem1 hmem2
  by_cases hjh : yi.toNat < h.toNat
  · rw [if_pos hjh] at hmem1 hmem2
    have hpeq : p1 = p2 :=
      rowPlates_covers_unique _ w p1 p2 hmem1 hmem2 x hx1 hx2 hx3 hx4
    subst hpeq
    obtain ⟨hbeq, hteq⟩ := maxRun_unique (plateStack m w h) p1 b1 t1 b2 t2
      yi.toNat hmax1 hmax2 (by omega) (by omega) (by omega) (by omega)
    rw [hbeq, hteq]
  · rw [if_neg hjh] at hmem1
    cases hmem1

/-- Every emitted rectangle is well-formed: `left ≤ right` and
`bottom ≤ top`. -/
theorem doorRectsP_wf (m : Int → Int → Bool) (w h : Int) (R : Rect)
    (hR : R ∈ doorRectsP m w h) : R.left ≤ R.right ∧ R.bottom ≤ R.top := by
  obtain ⟨p, b, t, hmax, hrect⟩ := (doorRectsP_mem m w h R).mp hR
  subst hrect
  have hmem : p ∈ rowAt (plateStack m w h) t := hmax.1.2.1 t hmax.1.1 le_rfl
  rw [rowAt_plateStack] at hmem
  by_cases hj : t < h.toNat
  · rw [if_pos hj] at hmem
    refine ⟨rowPlates_le _ w p hmem, ?_⟩
    show (b : Int) ≤ (t : Int)
    have hbt := hmax.1.1
    omega
  · rw [if_neg hj] at hmem
    cases hmem

/-- Coverage of the decomposition on a bounded partition: the emitted
rectangles cover exactly the marked cells. -/
theorem doorRects_coverage (doors : Finset (Int × Int)) (w h : Int)
    (hb : ∀ a b : Int, (a, b) ∈ doors → 0 ≤ a ∧ a < w ∧ 0 ≤ b ∧ b < h) :
    ∀ x y : Int,
      (∃ R ∈ doorRects doors w h, R.covers x y) ↔ (x, y) ∈ doors := by
  intro x yi
  unfold doorRects
  constructor
  · rintro ⟨R, hR, hc⟩
    obtain ⟨j, hj, hjh, p, hp, hx1, hx2⟩ :=
      doorRectsP_covers _ w h R hR x yi hc
    have hmT := rowPlates_marked _ w p hp x hx1 hx2
    rw [decide_eq_true_eq] at hmT
    rw [← hj]
    exact hmT
  · intro hmem
    obtain ⟨hx0, hxw, hy0, hyh⟩ := hb x yi hmem
    have hj : ((yi.toNat : Nat) : Int) = yi := Int.toNat_of_nonneg hy0
    have hjh : yi.toNat < h.toNat := by omega
    have hrowb : ∀ z : Int, decide ((z, (yi.toNat : Int)) ∈ doors) = true →
        0 ≤ z ∧ z < w := by
      intro z hz
      rw [decide_eq_true_eq] at hz
      obtain ⟨hz1, hz2, -, -⟩ := hb z _ hz
      exact ⟨hz1, hz2⟩
    have hmark : decide ((x, (yi.toNat : Int)) ∈ doors) = true := by
      rw [hj]
      exact decide_eq_true hmem
    obtain ⟨p, hp, hx1, hx2⟩ := rowPlates_cover _ w hrowb x hmark
    obtain ⟨R, hR, hcov⟩ :=
      doorRectsP_cell_covered (fun x0 y0 => decide ((x0, y0) ∈ doors)) w h
        yi.toNat hjh p hp x hx1 hx2
    rw [hj] at hcov
    exact ⟨R, hR, hcov⟩

/-! ### Cell sets and areas -/

/-- The cells covered by a rectangle, as a finite set. -/
def cellsOf (R : Rect) : Finset (Int × Int) :=
  Finset.Icc R.left R.right ×ˢ Finset.Icc R.bottom R.top

theorem mem_cellsOf (R : Rect) (c : Int × Int) :
    c ∈ cellsOf R ↔ R.covers c.1 c.2 := by
  unfold cellsOf Rect.covers
  rw [Finset.mem_product, Finset.mem_Icc, Finset.mem_Icc]
  tauto

theorem card_cellsOf (R : Rect) (h1 : R.left ≤ R.right)
    (h2 : R.bottom ≤ R.top) : ((cellsOf R).card : Int) = area R := by
  unfold cellsOf area
  rw [Finset.card_product, Int.card_Icc, Int.card_Icc]
  push_cast [Int.toNat_of_nonneg (by omega : (0:Int) ≤ R.right + 1 - R.left),
    Int.toNat_of_nonneg (by omega : (0:Int) ≤ R.top + 1 - R.bottom)]
  ring

/-! ### Congruence of the scan in its marked-cell predicate -/

theorem mem_intRange (n x : Int) : x ∈ intRange n ↔ 0 ≤ x ∧ x < n := by
  unfold intRange
  rw [List.mem_map]
  constructor
  · rintro ⟨i, hi, rfl⟩
    rw [List.mem_range] at hi
    rw [Int.ofNat_eq_natCast]
    omega
  · rintro ⟨h0, hn⟩
    refine ⟨x.toNat, ?_, ?_⟩
    · rw [List.mem_range]
      omega
    · rw [Int.ofNat_eq_natCast]
      omega

/-- The row scan only inspects the marked-cell predicate on the scanned
window `0 ≤ x ≤ width`. -/
theorem rowPlates_congr_window (m1 m2 : Int → Bool) (w : Int)
    (hm : ∀ x : Int, 0 ≤ x → x ≤ w → m1 x = m2 x) :
    rowPlates m1 w = rowPlates m2 w := by
  have haux : ∀ k : Nat, k ≤ (w + 1).toNat → scanState m1 k = scanState m2 k := by
    intro k
    induction k with
    | zero => intro _; rfl
    | succ k ih =>
        intro hk
        have hkw : (k : Int) ≤ w := by omega
        have hstep : plateStep m1 (scanState m2 k) (k : Int) =
            plateStep m2 (scanState m2 k) (k : Int) := by
          unfold plateStep
          rw [hm (k : Int) (by omega) hkw]
        rw [scanState_succ, scanState_succ, ih (by omega), hstep]
  rw [rowPlates_eq_scan, rowPlates_eq_scan, haux (w + 1).toNat le_rfl]

/-- The decomposition only inspects the marked-cell predicate on the scanned
window `[0, width] × [0, height)`. -/
theorem doorRectsP_congr_window (m1 m2 : Int → Int → Bool) (w h : Int)
    (hm : ∀ x y : Int, 0 ≤ x → x ≤ w → 0 ≤ y → y < h → m1 x y = m2 x y) :
    doorRectsP m1 w h = doorRectsP m2 w h := by
  unfold doorRectsP
  have hstack : plateStack m1 w h = plateStack m2 w h := by
    unfold plateStack
    apply List.map_congr_left
    intro yv hyv
    rw [mem_intRange] at hyv
    exact rowPlates_congr_window _ _ w
      (fun x hx0 hxw => hm x yv hx0 hxw hyv.1 hyv.2)
  rw [hstack]

/-! ### Partition grouping -/

/-- The per-level-entity grouping of door cells built by `door.rs`:
`level_to_door_locations.entry(level).or_default().insert(grid_coords)`,
folded over the door query results. -/
def groupDoors {K : Type} [DecidableEq K]
    (l : List (K × (Int × Int))) : K → Finset (Int × Int) :=
  l.foldl (fun mp e => fun k2 => if k2 = e.1 then insert e.2 (mp k2) else mp k2)
    (fun _ => ∅)

theorem groupDoors_fold_mem {K : Type} [DecidableEq K] :
    ∀ (l : List (K × (Int × Int))) (acc : K → Finset (Int × Int))
      (k : K) (c : Int × Int),
      c ∈ l.foldl
        (fun mp e => fun k2 => if k2 = e.1 then insert e.2 (mp k2) else mp k2)
        acc k ↔
      (k, c) ∈ l ∨ c ∈ acc k := by
  intro l
  induction l with
  | nil =>
      intro acc k c
      simp
  | cons e l ihl =>
      intro acc k c
      rw [List.foldl_cons, ihl, List.mem_cons]
      by_cases hk : k = e.1
      · rw [if_pos hk, Finset.mem_insert]
        have he : (k, c) = e ↔ c = e.2 := by
          subst hk
          constructor
          · intro h2
            exact congrArg Prod.snd h2
          · intro h2
            rw [h2]
        rw [he]
        tauto
      · rw [if_neg hk]
        have he : ¬((k, c) = e) := fun h2 => hk (congrArg Prod.fst h2)
        constructor
        · rintro (hL | hL)
          · exact Or.inl (Or.inr hL)
          · exact Or.inr hL
        · rintro ((hL | hL) | hL)
          · exact absurd hL he
          · exact Or.inl hL
          · exact Or.inr hL

theorem groupDoors_mem {K : Type} [DecidableEq K]
    (l : List (K × (Int × Int))) (k : K) (c : Int × Int) :
    c ∈ groupDoors l k ↔ (k, c) ∈ l := by
  unfold groupDoors
  rw [groupDoors_fold_mem]
  simp

/-! ### Prefix decomposition of the merging loop -/

theorem mergeLoop_append :
    ∀ (l1 l2 : List (List Plate)) (y : Nat) (prev : List Plate)
      (st : MergeState),
      mergeLoop y prev (l1 ++ l2) st =
        mergeLoop (y + l1.length) (l1.getLastD prev) l2
          (mergeLoop y prev l1 st) := by
  intro l1
  induction l1 with
  | nil =>
      intro l2 y prev st
      simp only [List.nil_append, List.length_nil, Nat.add_zero,
        List.getLastD_nil]
      rfl
  | cons c l1 ih =>
      intro l2 y prev st
      show mergeLoop (y + 1) c (l1 ++ l2) (rowStep (y : Int) prev c st) =
        mergeLoop (y + (l1.length + 1)) ((c :: l1).getLastD prev) l2
          (mergeLoop y prev (c :: l1) st)
      rw [ih, List.getLastD_cons]
      have hyy : y + 1 + l1.length = y + (l1.length + 1) := by omega
      rw [hyy]
      rfl

theorem rowAt_take (S : List (List Plate)) (n j : Nat) :
    rowAt (S.take n) j = if j < n then rowAt S j else [] := by
  unfold rowAt
  rw [List.getElem?_take]
  split
  · rfl
  · rfl

/-- The merge state of one partition's run after the loop has consumed the
first `n` rows of its sentinel-extended plate stack (the remaining rows
cannot influence it, by `mergeLoop_append`). -/
def stateAfter (doors : Finset (Int × Int)) (w h : Int) (n : Nat) :
    MergeState :=
  mergeLoop 0 []
    ((plateStack (fun x y => decide ((x, y) ∈ doors)) w h ++ [[]]).take n)
    initState

/-- The full run of the decomposition loop factors through `stateAfter`:
what it computes after the first `n` rows is exactly the state reached on
the truncated stack. -/
theorem doorRects_through_stateAfter (doors : Finset (Int × Int))
    (w h : Int) (n : Nat) :
    doorRects doors w h =
      (mergeLoop n
        (((plateStack (fun x y => decide ((x, y) ∈ doors)) w h ++ [[]]).take
          n).getLastD [])
        ((plateStack (fun x y => decide ((x, y) ∈ doors)) w h ++ [[]]).drop n)
        (stateAfter doors w h n)).rects := by
  unfold doorRects doorRectsP stateAfter
  rcases le_or_lt n
    ((plateStack (fun x y => decide ((x, y) ∈ doors)) w h ++ [[]]).length)
    with hn | hn
  · conv =>
      lhs
      rw [← List.take_append_drop n
        (plateStack (fun x y => decide ((x, y) ∈ doors)) w h ++ [[]])]
    rw [mergeLoop_append]
    rw [List.length_take, Nat.min_eq_left hn, Nat.zero_add]
  · rw [List.take_of_length_le (by omega), List.drop_eq_nil_of_le (by omega)]
    rfl

/-! ### Claim theorems -/

/-- C1: for every partition whose marked cells all lie within the declared
bounds `[0,width) × [0,height)`, the union of the cell sets
`[left,right] × [bottom,top]` of the emitted rectangles equals exactly the
partition's marked-cell set: every marked cell is covered and no unmarked
cell is covered. -/
theorem coverage_exact (doors : Finset (Int × Int)) (w h : Int)
    (hb : ∀ a b : Int, (a, b) ∈ doors → 0 ≤ a ∧ a < w ∧ 0 ≤ b ∧ b < h) :
    ∀ x y : Int,
      (∃ R ∈ doorRects doors w h, R.covers x y) ↔ (x, y) ∈ doors :=
  doorRects_coverage doors w h hb

theorem coverage_exact_witness :
    (∃ R ∈ doorRects {((0:Int), (0:Int))} 1 1, R.covers 0 0) ↔
      ((0:Int), (0:Int)) ∈ ({((0:Int), (0:Int))} : Finset (Int × Int)) :=
  coverage_exact {((0:Int), (0:Int))} 1 1
    (by
      intro a b hab
      simp only [Finset.mem_singleton, Prod.mk.injEq] at hab
      omega) 0 0

/-- C2: for every partition with all marked cells within declared bounds, no
two distinct rectangles emitted by one decomposition call share any cell:
their inclusive boxes are pairwise disjoint. -/
theorem rects_pairwise_disjoint (doors : Finset (Int × Int)) (w h : Int)
    (hb : ∀ a b : Int, (a, b) ∈ doors → 0 ≤ a ∧ a < w ∧ 0 ≤ b ∧ b < h) :
    (doorRects doors w h).Pairwise
      (fun R1 R2 => ∀ x y : Int, ¬(R1.covers x y ∧ R2.covers x y)) := by
  have hnd : (doorRects doors w h).Nodup := doorRectsP_nodup _ w h
  refine hnd.imp_of_mem ?_
  intro R1 R2 h1 h2 hne x yi hcc
  exact hne (doorRectsP_covers_eq _ w h R1 R2 h1 h2 x yi hcc.1 hcc.2)

theorem rects_pairwise_disjoint_witness :
    (doorRects {((0:Int), (0:Int)), ((2:Int), (0:Int))} 3 1).Pairwise
      (fun R1 R2 => ∀ x y : Int, ¬(R1.covers x y ∧ R2.covers x y)) :=
  rects_pairwise_disjoint {((0:Int), (0:Int)), ((2:Int), (0:Int))} 3 1
    (by
      intro a b hab
      simp only [Finset.mem_insert, Finset.mem_singleton, Prod.mk.injEq] at hab
      omega)

/-- C3, counterexample: the decomposition does not reject a partition whose
marked set contains the out-of-bounds cell `(5, 0)` (width 3, height 1); it
produces an output rectangle rather than no output. -/
theorem out_of_bounds_not_rejected :
    (((5:Int), (0:Int)) ∈
        ({((0:Int), (0:Int)), ((5:Int), (0:Int))} : Finset (Int × Int)) ∧
      ¬((0:Int) ≤ 5 ∧ (5:Int) < 3)) ∧
    doorRects {((0:Int), (0:Int)), ((5:Int), (0:Int))} 3 1 =
      [⟨0, 0, 0, 0⟩] := by
  decide

/-- C3, amended: an out-of-bounds marked cell is not rejected and raises no
error; the decomposition is total and its output depends only on the marked
cells inside the scan window `[0, width] × [0, height)` — cells outside that
window are silently ignored (a cell at column `x = width` remains visible to
the scan and can suppress plates, see C10). -/
theorem out_of_bounds_silently_ignored (doors : Finset (Int × Int))
    (w h : Int) :
    doorRects doors w h =
      doorRects
        (doors.filter (fun c => 0 ≤ c.1 ∧ c.1 ≤ w ∧ 0 ≤ c.2 ∧ c.2 < h))
        w h := by
  unfold doorRects
  apply doorRectsP_congr_window
  intro x y hx0 hxw hy0 hyh
  apply decide_eq_decide.mpr
  rw [Finset.mem_filter]
  constructor
  · intro hm2
    exact ⟨hm2, hx0, hxw, hy0, hyh⟩
  · exact fun hp => hp.1

/-- C4: for a row whose marked cells lie within `[0, width)`, the row plate
extractor produces exactly one plate per maximal contiguous run of marked
columns (the scan column at `x = width` is treated as unmarked under the
bounds assumption, so a run touching the right edge closes at `width - 1`),
in ascending `left` order. -/
theorem rowPlates_spec (m : Int → Bool) (w : Int)
    (hb : ∀ x, m x = true → 0 ≤ x ∧ x < w) :
    (∀ p, p ∈ rowPlates m w ↔ isRun m p) ∧
    (rowPlates m w).Pairwise (fun a b => a.left < b.left) :=
  ⟨fun p => (rowPlates_mem m w p).trans (isRunBelow_iff_isRun m w hb p),
    rowPlates_pairwise m w⟩

theorem rowPlates_spec_witness :
    (∀ p, p ∈ rowPlates (fun x => decide (x = 0)) 3 ↔
      isRun (fun x => decide (x = 0)) p) ∧
    (rowPlates (fun x => decide (x = 0)) 3).Pairwise
      (fun a b => a.left < b.left) :=
  rowPlates_spec (fun x => decide (x = 0)) 3
    (by
      intro x hx
      rw [decide_eq_true_eq] at hx
      omega)

/-- C6: for the 3×3 grid with marked cells `{(0,0),(1,0),(1,1)}` the
decomposition emits exactly the two rectangles `{left:0,right:1,top:0,
bottom:0}` and `{left:1,right:1,top:1,bottom:1}`: the exact-interval-equality
merge policy prevents any other merging of these cells. -/
theorem staggered_L_example :
    doorRects {((0:Int), (0:Int)), ((1:Int), (0:Int)), ((1:Int), (1:Int))}
      3 3 = [⟨0, 1, 0, 0⟩, ⟨1, 1, 1, 1⟩] := by
  decide

/-- C9: the decomposition is a function of the marked-cell set alone: two
runs on identical occupancy input produce identical rectangle output (here
even including order, which implies equality of the rectangle sets up to
output ordering). -/
theorem decomposition_deterministic (d1 d2 : Finset (Int × Int)) (w h : Int)
    (hsame : ∀ c : Int × Int, c ∈ d1 ↔ c ∈ d2) :
    doorRects d1 w h = doorRects d2 w h := by
  have hd : d1 = d2 := Finset.ext hsame
  rw [hd]

theorem decomposition_deterministic_witness :
    doorRects {((0:Int), (0:Int))} 1 1 = doorRects {((0:Int), (0:Int))} 1 1 :=
  decomposition_deterministic {((0:Int), (0:Int))} {((0:Int), (0:Int))} 1 1
    (fun c => Iff.rfl)

/-- C10: if a partition's marked set contains a whole right-edge run up to
and including the out-of-bounds column `x = width` of some row `y`, the row
scan never closes that run, so no emitted rectangle covers any of the run's
in-bounds cells — they are silently dropped, with no error raised (the
decomposition is total). -/
theorem right_edge_run_dropped (doors : Finset (Int × Int)) (w h : Int)
    (y : Nat) (x0 : Int)
    (hrun : ∀ x : Int, x0 ≤ x → x ≤ w → (x, (y : Int)) ∈ doors) :
    ∀ R ∈ doorRects doors w h, ∀ x : Int, x0 ≤ x → x ≤ w - 1 →
      ¬ R.covers x (y : Int) := by
  intro R hR x hx1 hx2 hc
  obtain ⟨j, hj, hjh, p, hp, hpx1, hpx2⟩ :=
    doorRectsP_covers _ w h R hR x (y : Int) hc
  have hjy : j = y := by omega
  subst hjy
  obtain ⟨hpr, hprw⟩ := rowPlates_right _ w p hp
  have hmark : (p.right + 1, (j : Int)) ∈ doors :=
    hrun (p.right + 1) (by omega) hprw
  have hdec : decide ((p.right + 1, (j : Int)) ∈ doors) = true :=
    decide_eq_true hmark
  exact Bool.noConfusion (hdec.symm.trans hpr)

theorem right_edge_run_dropped_witness :
    ¬ (⟨0, 0, 0, 0⟩ : Rect).covers 1 ((1 : Nat) : Int) :=
  right_edge_run_dropped
    {((0:Int), (0:Int)), ((1:Int), (1:Int)), ((2:Int), (1:Int))} 2 2 1 1
    (by
      intro x h1 h2
      have hx : x = 1 ∨ x = 2 := by omega
      rcases hx with rfl | rfl
      · decide
      · decide)
    ⟨0, 0, 0, 0⟩ (by decide) 1 (by decide) (by decide)

/-- C5: after the merge loop has processed row `y` (the state reached on the
first `y + 1` rows of the sentinel-extended plate stack, which by
`doorRects_through_stateAfter` is exactly the intermediate state of the real
run), every entry `(plate ↦ rect)` of the in-progress mapping satisfies
`rect.left = plate.left`, `rect.right = plate.right`,
`rect.bottom ≤ rect.top = y`, and the plate occurs in row `y`'s plate list;
in particular an entry extended at row `y` (`e.top += 1`) has its top at
exactly `y`, and a fresh entry starts as `{left, right, top: y, bottom: y}`. -/
theorem builder_inv_after_row (doors : Finset (Int × Int)) (w h : Int)
    (y : Nat) (p : Plate) (R : Rect)
    (hR : (stateAfter doors w h (y + 1)).builder p = some R) :
    R.left = p.left ∧ R.right = p.right ∧ R.bottom ≤ R.top ∧
      R.top = (y : Int) ∧
      p ∈ rowAt (plateStack (fun x0 y0 => decide ((x0, y0) ∈ doors)) w h)
        y := by
  set S := plateStack (fun x0 y0 => decide ((x0, y0) ∈ doors)) w h ++ [[]]
    with hS
  have hrows : ∀ j, (rowAt (S.take (y + 1)) j).Nodup := by
    intro j
    rw [rowAt_take]
    split
    · rw [hS]
      exact rowAt_stack_nodup _ w h j
    · exact List.nodup_nil
  have hInv := loop_inv (S.take (y + 1)) hrows (S.take (y + 1)) 0 initState
    rfl (Nat.zero_le _) (inv_init _)
  obtain ⟨b, y', hy, hrun, hrect⟩ := (hInv.1 p R).mp hR
  rcases le_or_lt (y + 1) S.length with hle | hlt
  · have hlen : (S.take (y + 1)).length = y + 1 := by
      rw [List.length_take]
      omega
    have hy'e : y' = y := by omega
    subst hy'e
    have hmem : p ∈ rowAt (S.take (y' + 1)) y' := hrun.2.1 y' hrun.1 le_rfl
    rw [rowAt_take, if_pos (show y' < y' + 1 by omega)] at hmem
    rw [hS, rowAt_append_nil] at hmem
    subst hrect
    refine ⟨rfl, rfl, ?_, rfl, hmem⟩
    show (b : Int) ≤ (y' : Int)
    have hby := hrun.1
    omega
  · exfalso
    have htake : S.take (y + 1) = S := List.take_of_length_le (by omega)
    rw [htake] at hy hrun
    have hmem : p ∈ rowAt S y' := hrun.2.1 y' hrun.1 le_rfl
    have hlenS : S.length =
        (plateStack (fun x0 y0 => decide ((x0, y0) ∈ doors)) w h).length
          + 1 := by
      rw [hS, List.length_append]
      rfl
    have hy'eq : y' =
        (plateStack (fun x0 y0 => decide ((x0, y0) ∈ doors)) w h).length := by
      omega
    rw [hS, hy'eq] at hmem
    unfold rowAt at hmem
    rw [List.getElem?_append_right le_rfl, Nat.sub_self] at hmem
    simp at hmem

theorem builder_inv_after_row_witness :
    ((stateAfter {((0:Int), (0:Int))} 1 1 1).builder ⟨0, 0⟩ =
      some ⟨0, 0, 0, 0⟩) ∧
    ((⟨0, 0, 0, 0⟩ : Rect).left = (⟨0, 0⟩ : Plate).left ∧
      (⟨0, 0, 0, 0⟩ : Rect).right = (⟨0, 0⟩ : Plate).right ∧
      (⟨0, 0, 0, 0⟩ : Rect).bottom ≤ (⟨0, 0, 0, 0⟩ : Rect).top ∧
      (⟨0, 0, 0, 0⟩ : Rect).top = ((0 : Nat) : Int) ∧
      (⟨0, 0⟩ : Plate) ∈ rowAt
        (plateStack
          (fun x0 y0 => decide ((x0, y0) ∈ ({((0:Int), (0:Int))} :
            Finset (Int × Int)))) 1 1) 0) :=
  ⟨by decide, builder_inv_after_row {((0:Int), (0:Int))} 1 1 0 ⟨0, 0⟩
    ⟨0, 0, 0, 0⟩ (by decide)⟩

/-- C7: for every partition with all marked cells within declared bounds,
the sum of `(right-left+1)*(top-bottom+1)` over all emitted rectangles
equals the number of marked cells, in exact integer arithmetic. -/
theorem area_conservation (doors : Finset (Int × Int)) (w h : Int)
    (hb : ∀ a b : Int, (a, b) ∈ doors → 0 ≤ a ∧ a < w ∧ 0 ≤ b ∧ b < h) :
    ((doorRects doors w h).map area).sum = (doors.card : Int) := by
  have hnd : (doorRects doors w h).Nodup := doorRectsP_nodup _ w h
  have hwf : ∀ R ∈ (doorRects doors w h).toFinset,
      R.left ≤ R.right ∧ R.bottom ≤ R.top := by
    intro R hR
    rw [List.mem_toFinset] at hR
    exact doorRectsP_wf _ w h R hR
  have hdisj : ∀ R1 ∈ (doorRects doors w h).toFinset,
      ∀ R2 ∈ (doorRects doors w h).toFinset, R1 ≠ R2 →
      Disjoint (cellsOf R1) (cellsOf R2) := by
    intro R1 h1 R2 h2 hne
    rw [List.mem_toFinset] at h1 h2
    rw [Finset.disjoint_left]
    intro c hc1 hc2
    rw [mem_cellsOf] at hc1 hc2
    exact hne (doorRectsP_covers_eq _ w h R1 R2 h1 h2 c.1 c.2 hc1 hc2)
  have hunion : (doorRects doors w h).toFinset.biUnion cellsOf = doors := by
    ext c
    rw [Finset.mem_biUnion]
    constructor
    · rintro ⟨R, hR, hc⟩
      rw [List.mem_toFinset] at hR
      rw [mem_cellsOf] at hc
      exact (doorRects_coverage doors w h hb c.1 c.2).mp ⟨R, hR, hc⟩
    · intro hc
      obtain ⟨R, hR, hcov⟩ := (doorRects_coverage doors w h hb c.1 c.2).mpr hc
      refine ⟨R, ?_, ?_⟩
      · rw [List.mem_toFinset]
        exact hR
      · rw [mem_cellsOf]
        exact hcov
  calc ((doorRects doors w h).map area).sum
      = ∑ R ∈ (doorRects doors w h).toFinset, area R :=
        (List.sum_toFinset area hnd).symm
    _ = ∑ R ∈ (doorRects doors w h).toFinset, ((cellsOf R).card : Int) := by
        refine Finset.sum_congr rfl (fun R hR => ?_)
        exact (card_cellsOf R (hwf R hR).1 (hwf R hR).2).symm
    _ = (((doorRects doors w h).toFinset.biUnion cellsOf).card : Int) := by
        rw [Finset.card_biUnion hdisj, Nat.cast_sum]
    _ = (doors.card : Int) := by rw [hunion]

theorem area_conservation_witness :
    ((doorRects {((0:Int), (0:Int)), ((1:Int), (0:Int))} 2 1).map area).sum =
      (({((0:Int), (0:Int)), ((1:Int), (0:Int))} :
        Finset (Int × Int)).card : Int) :=
  area_conservation {((0:Int), (0:Int)), ((1:Int), (0:Int))} 2 1
    (by
      intro a b hab
      simp only [Finset.mem_insert, Finset.mem_singleton, Prod.mk.injEq] at hab
      omega)

/-- C8: decomposing partition `k` alongside other partitions' entries yields
the same rectangles as decomposing it alone (the grouping isolates each key's
cell set), and — under the bounds assumption — no emitted rectangle of `k`
covers a cell that is not among `k`'s own entries. -/
theorem partition_isolation {K : Type} [DecidableEq K]
    (l l2 : List (K × (Int × Int))) (k : K) (w h : Int)
    (hother : ∀ e ∈ l2, e.1 ≠ k)
    (hb : ∀ a b : Int, (a, b) ∈ groupDoors (l ++ l2) k →
      0 ≤ a ∧ a < w ∧ 0 ≤ b ∧ b < h) :
    doorRects (groupDoors (l ++ l2) k) w h =
      doorRects (groupDoors l k) w h ∧
    ∀ R ∈ doorRects (groupDoors (l ++ l2) k) w h, ∀ x y : Int,
      R.covers x y → (k, (x, y)) ∈ l := by
  have hset : groupDoors (l ++ l2) k = groupDoors l k := by
    apply Finset.ext
    intro c
    rw [groupDoors_mem, groupDoors_mem, List.mem_append]
    constructor
    · rintro (hc | hc)
      · exact hc
      · exact absurd rfl (hother _ hc)
    · exact Or.inl
  refine ⟨by rw [hset], ?_⟩
  intro R hR x yv hc
  have hcov := (doorRects_coverage (groupDoors (l ++ l2) k) w h hb x yv).mp
    ⟨R, hR, hc⟩
  rw [hset, groupDoors_mem] at hcov
  exact hcov

theorem partition_isolation_witness :
    (doorRects
        (groupDoors ([((0 : Nat), ((0:Int), (0:Int)))] ++
          [((1 : Nat), ((0:Int), (0:Int)))]) 0) 1 1 =
      doorRects (groupDoors [((0 : Nat), ((0:Int), (0:Int)))] 0) 1 1) ∧
    ∀ R ∈ doorRects
        (groupDoors ([((0 : Nat), ((0:Int), (0:Int)))] ++
          [((1 : Nat), ((0:Int), (0:Int)))]) 0) 1 1,
      ∀ x y : Int, R.covers x y →
        ((0 : Nat), (x, y)) ∈ [((0 : Nat), ((0:Int), (0:Int)))] :=
  partition_isolation [((0 : Nat), ((0:Int), (0:Int)))]
    [((1 : Nat), ((0:Int), (0:Int)))] 0 1 1
    (by
      intro e he
      rw [List.mem_singleton] at he
      subst he
      decide)
    (by
      intro a b hab
      rw [groupDoors_mem] at hab
      simp only [List.mem_append, List.mem_singleton, Prod.mk.injEq] at hab
      omega)

end EscapeBasement
